import Mathlib

/-!
Shallow embedding of `reclass/utils/refvalue.py` (class `RefValue`): the lexer,
the parser with its interpolation-body sub-scan, the reference resolver and the
renderer/assembler, together with proofs about the specification claims.

Strings are modelled as `List Char`.  The stateful `while`/`for` loops of the
source become explicit state-passing recursion, structural on a fuel argument
that over-approximates the number of remaining loop iterations; every lemma
carries the (always satisfiable) fuel-sufficiency hypothesis and the canonical
entry points instantiate the fuel with a provably sufficient value, so the
fuel-exhausted branches are unreachable.  Fallible code returns `Except`.
-/

namespace Reclass

/-- Lexer token tags, mirroring `LT_ESCAPE`, `LT_INTRPL_START`, `LT_INTRPL_END`
and `LT_LITERAL` (the source uses strings "for simplified debugging"). -/
inductive Tag
  | ESCAPE
  | INTRPL_START
  | INTRPL_END
  | LITERAL
deriving DecidableEq

/-- A lexer token: the Python code uses a `(text, tag)` tuple, indexed by
`TT_TEXT = 0` and `TT_TAG = 1`. -/
structure Token where
  text : List Char
  tag : Tag
deriving DecidableEq

/-- The character `{` (written via `Char.ofNat` throughout this file). -/
def lbrace : Char := Char.ofNat 123

/-- The character `}` (written via `Char.ofNat` throughout this file). -/
def rbrace : Char := Char.ofNat 125

/-- Modelled from the spec: `reclass.defaults` is not part of `src/`; §6 of the
spec gives the defaults used by the module: the escape character is a single
backslash. -/
def ESCAPE_CHARACTER : List Char := ['\\']

/-- Modelled from the spec: `reclass.defaults` is not part of `src/`; §6 of the
spec gives the interpolation sentinel pair, a two-character open marker and a
one-character close marker, `${` / `}`. -/
def PARAMETER_INTERPOLATION_SENTINELS : List Char × List Char :=
  (['$', lbrace], [rbrace])

/-- Modelled from the spec: `reclass.defaults` is not part of `src/`; §6 of the
spec gives the default path delimiter `.` (a one-character string, modelled as a
`Char`). -/
def PARAMETER_INTERPOLATION_DELIMITER : Char := '.'

/-- Python `chars.find(pattern, pos, pos + len(pattern))` from `_lex`: the
search window has exactly the pattern's length, so the search succeeds
(returning `pos`) iff the slice `chars[pos : pos + len(pattern)]` equals the
pattern; a window reaching past the end of `chars` is clamped and cannot
match a (longer) pattern. -/
def matchAt (chars : List Char) (pos : Nat) (pat : List Char) : Bool :=
  (chars.drop pos).take pat.length == pat

/-- The inner `for token_expr in self.TOKEN_EXPRS` loop of `_lex`: the token
expressions are tried in their fixed order (escape, interpolation start,
interpolation end) and the first pattern matching at `pos` wins, yielding the
matched text (equal to the pattern) and its tag; `None` when no pattern
matches at `pos`. -/
def tryMatch (chars : List Char) (pos : Nat) : Option (List Char × Tag) :=
  if matchAt chars pos ESCAPE_CHARACTER then
    some (ESCAPE_CHARACTER, Tag.ESCAPE)
  else if matchAt chars pos PARAMETER_INTERPOLATION_SENTINELS.1 then
    some (PARAMETER_INTERPOLATION_SENTINELS.1, Tag.INTRPL_START)
  else if matchAt chars pos PARAMETER_INTERPOLATION_SENTINELS.2 then
    some (PARAMETER_INTERPOLATION_SENTINELS.2, Tag.INTRPL_END)
  else
    none

/-- Python slice `chars[s:e]`. -/
def pySlice (chars : List Char) (s e : Nat) : List Char :=
  (chars.drop s).take (e - s)

/-- The `while pos < len(chars)` loop of `_lex`, as explicit state passing:
`pos` is the cursor, `litStart` is `token_literal_start` (`none` = Python
`None`), `acc` the accumulated token list.  One subtlety of the source is kept
as-is: when no token expression matches and no literal is pending, the loop
only records `token_literal_start = pos` and re-scans the same position (which
again fails to match, and then advances by one).  `fuel` bounds the number of
remaining iterations; `2 * (chars.length - pos) + 2` is always sufficient, so
the fuel-exhausted branch (returning `acc`) is unreachable at the canonical
entry point `lex`. -/
def lexLoopF (fuel : Nat) (chars : List Char) (pos : Nat) (litStart : Option Nat)
    (acc : List Token) : List Token :=
  match fuel with
  | 0 => acc
  | fuel + 1 =>
    if pos < chars.length then
      match tryMatch chars pos with
      | some (pat, tag) =>
        -- a match at `pos`: flush any pending literal, then emit the marker
        -- token (`text = chars[match_start:match_end]`, which equals `pat`).
        let acc' := match litStart with
          | some s => acc ++ [⟨pySlice chars s pos, Tag.LITERAL⟩]
          | none => acc
        lexLoopF fuel chars (pos + pat.length) none (acc' ++ [⟨pat, tag⟩])
      | none =>
        match litStart with
        | none => lexLoopF fuel chars pos (some pos) acc
        | some s => lexLoopF fuel chars (pos + 1) (some s) acc
    else
      -- loop exit: flush a pending literal, "otherwise data would get lost".
      match litStart with
      | some s => acc ++ [⟨chars.drop s, Tag.LITERAL⟩]
      | none => acc

/-- `RefValue._lex`: tokenize a raw string.  The fuel `2 * chars.length + 2`
is an upper bound on the iteration count of the lexer loop (each iteration
either advances the cursor or switches `token_literal_start` from `None` to a
value, and the cursor advances at most `chars.length` times). -/
def lex (chars : List Char) : List Token :=
  lexLoopF (2 * chars.length + 2) chars 0 none []

/-- Parser part (`PT_LITERAL` / `PT_REFERENCE` dictionaries `{'type': …,
'data': …}` in the source). -/
inductive Part
  | lit (data : List Char)
  | ref (data : List Char)
deriving DecidableEq

/-- The `'data'` entry of a part, accessed uniformly in `_assemble` as
`part['data']`. -/
def Part.data : Part → List Char
  | Part.lit d => d
  | Part.ref d => d

/-- Errors raised during `RefValue` construction.  `incompleteInterpolation`
is `IncompleteInterpolationError(''.join(parts), SENTINELS[1])`;
`interpolationError` is the `InterpolationError` for an empty reference name;
`indexError` models a Python `IndexError` escaping from `_parse_interpolation`
(an out-of-range `tokens[index + 1]` subscript, which is not caught by the
`except StopIteration` handler). -/
inductive ParseErr
  | incompleteInterpolation (partName : List Char) (terminator : List Char)
  | interpolationError
  | indexError
deriving DecidableEq

/-- Placeholder token used with `List.getD`; every `getD` access in the
parser is guarded so the default is never read. -/
def dummyToken : Token := ⟨[], Tag.LITERAL⟩

/-- The tag of `tokens[i]` (all such accesses in the parser are
bounds-guarded, so the `getD` default is irrelevant). -/
def tagAt (tokens : List Token) (i : Nat) : Tag :=
  (tokens.getD i dummyToken).tag

/-- The text of `tokens[i]` (all such accesses in the parser are
bounds-guarded, so the `getD` default is irrelevant). -/
def textAt (tokens : List Token) (i : Nat) : List Char :=
  (tokens.getD i dummyToken).text

/-- `ESCAPABLE_LT_TOKENS = (LT_ESCAPE, LT_INTRPL_START)`: membership of a tag
in the set of escapable lexer tokens. -/
def isEscapable (t : Tag) : Bool :=
  t == Tag.ESCAPE || t == Tag.INTRPL_START

/-- Python line 214, `if tokens[index + 1] == self.LT_INTRPL_END:`: the whole
`(text, tag)` tuple `tokens[index + 1]` is compared with the plain string
`LT_INTRPL_END`; in Python a tuple never equals a string, so this test is
constantly false — but the subscript `tokens[index + 1]` is still evaluated
first and raises `IndexError` when out of range. -/
def tokenTupleEqEndTag (_t : Token) : Bool := false

/-- `RefValue._parse_interpolation`: the `while True` sub-scan collecting the
reference name after an interpolation-start token.  `j` is the index the
shared token iterator would yield next, `parts` the collected name pieces.
On an unescaped interpolation-end token the scan breaks, checks for an empty
name, and returns the joined name together with the index at which the main
parse loop resumes.  Exhausting the tokens raises `StopIteration`, turned
into the incomplete-interpolation error carrying `''.join(parts)` and the
expected terminator `SENTINELS[1]`.  `fuel` bounds the iterations;
`tokens.length + 1` is always sufficient (hypothesis `tokens.length - j <
fuel` in the lemmas), so the fuel-exhausted branch is unreachable from the
canonical entry point. -/
def parseInterpolationF (fuel : Nat) (tokens : List Token) (j : Nat)
    (parts : List (List Char)) : Except ParseErr (List Char × Nat) :=
  match fuel with
  | 0 => Except.error ParseErr.indexError
  | fuel + 1 =>
    if j < tokens.length then
      if tagAt tokens j = Tag.INTRPL_END then
        -- break; then `if len(parts) == 0: raise InterpolationError(…)`.
        if parts = [] then Except.error ParseErr.interpolationError
        else Except.ok (parts.flatten, j + 1)
      else if tagAt tokens j = Tag.ESCAPE then
        if j + 1 < tokens.length then
          if tokenTupleEqEndTag (tokens.getD (j + 1) dummyToken) then
            parseInterpolationF fuel tokens (j + 2)
              (parts ++ [textAt tokens (j + 1)])
          else
            -- fall through to `parts.append(token[TT_TEXT])`.
            parseInterpolationF fuel tokens (j + 1) (parts ++ [textAt tokens j])
        else
          -- `tokens[index + 1]` is out of range: Python raises IndexError.
          Except.error ParseErr.indexError
      else
        parseInterpolationF fuel tokens (j + 1) (parts ++ [textAt tokens j])
    else
      -- `token_iterator.next()` raises StopIteration.
      Except.error (ParseErr.incompleteInterpolation parts.flatten
        PARAMETER_INTERPOLATION_SENTINELS.2)

/-- Canonical entry point for the interpolation-body sub-scan, with provably
sufficient fuel. -/
def parseInterpolation (tokens : List Token) (j : Nat) (parts : List (List Char)) :
    Except ParseErr (List Char × Nat) :=
  parseInterpolationF (tokens.length + 1) tokens j parts

/-- `RefValue._parse`: the main `for index, token in token_iterator` loop.
`i` is the next index of the shared iterator, `parts` the accumulated part
list, `hasEsc` the `_has_escapes` flag.  The escape-token case follows the
source's four adjacency branches (lines 160–188); an interpolation-end token
outside a sub-scan becomes a literal; an interpolation-start token runs the
sub-scan and emits a reference part.  `fuel` bounds the iterations;
`tokens.length + 1` is always sufficient (hypothesis `tokens.length - i <
fuel` in the lemmas). -/
def parseLoopF (fuel : Nat) (tokens : List Token) (i : Nat) (parts : List Part)
    (hasEsc : Bool) : Except ParseErr (List Part × Bool) :=
  match fuel with
  | 0 => Except.error ParseErr.indexError
  | fuel + 1 =>
    if i < tokens.length then
      if tagAt tokens i = Tag.LITERAL then
        parseLoopF fuel tokens (i + 1) (parts ++ [Part.lit (textAt tokens i)]) hasEsc
      else if tagAt tokens i = Tag.ESCAPE then
        if i = tokens.length - 1 then
          -- the escape token is the last one: emit it as a literal.
          parseLoopF fuel tokens (i + 1) (parts ++ [Part.lit (textAt tokens i)]) hasEsc
        else if i + 1 ≤ tokens.length - 1 ∧ isEscapable (tagAt tokens (i + 1)) = false then
          -- next token unescapable: emit the escape verbatim, do not skip.
          parseLoopF fuel tokens (i + 1) (parts ++ [Part.lit (textAt tokens i)]) hasEsc
        else if i + 2 ≤ tokens.length - 1 ∧ tagAt tokens (i + 1) = Tag.ESCAPE
            ∧ isEscapable (tagAt tokens (i + 2)) = false then
          -- double escape before an unescapable token: emit both verbatim,
          -- consume the next token.
          parseLoopF fuel tokens (i + 2)
            (parts ++ [Part.lit (textAt tokens i), Part.lit (textAt tokens (i + 1))]) hasEsc
        else
          -- next token escapable: emit the next token's text as a literal,
          -- consume it, set `_has_escapes = True`.
          parseLoopF fuel tokens (i + 2) (parts ++ [Part.lit (textAt tokens (i + 1))]) true
      else if tagAt tokens i = Tag.INTRPL_END then
        parseLoopF fuel tokens (i + 1) (parts ++ [Part.lit (textAt tokens i)]) hasEsc
      else
        -- LT_INTRPL_START: run the interpolation-body sub-scan.
        match parseInterpolation tokens (i + 1) [] with
        | Except.error e => Except.error e
        | Except.ok (name, next) =>
          parseLoopF fuel tokens next (parts ++ [Part.ref name]) hasEsc
    else
      Except.ok (parts, hasEsc)

/-- Canonical entry point for the main parse loop from position `i`, with
provably sufficient fuel. -/
def parseLoop (tokens : List Token) (i : Nat) (parts : List Part) (hasEsc : Bool) :
    Except ParseErr (List Part × Bool) :=
  parseLoopF (tokens.length + 1) tokens i parts hasEsc

/-- `RefValue._parse` applied to a whole token list: the resulting part list
together with the final `_has_escapes` flag. -/
def parse (tokens : List Token) : Except ParseErr (List Part × Bool) :=
  parseLoop tokens 0 [] false

/-- A Python value as it appears in a render context: a string, an integer, a
sequence, or a nested mapping with string keys (the shapes the class
docstring exercises). -/
inductive Value
  | str (s : List Char)
  | int (n : Int)
  | list (xs : List Value)
  | dict (entries : List (List Char × Value))

mutual

/-- Python `repr` of a context value, used by `str` on containers.  Only the
fact that the general assembly path produces a string matters to the claims;
string quoting inside containers is rendered without escaping. -/
def pyRepr : Value → List Char
  | Value.str s => '\'' :: (s ++ ['\''])
  | Value.int n => (toString n).toList
  | Value.list xs => '[' :: (pyReprList xs ++ [']'])
  | Value.dict es => lbrace :: (pyReprEntries es ++ [rbrace])

/-- `repr` of the comma-separated elements of a Python list. -/
def pyReprList : List Value → List Char
  | [] => []
  | [x] => pyRepr x
  | x :: y :: xs => pyRepr x ++ ',' :: ' ' :: pyReprList (y :: xs)

/-- `repr` of the comma-separated `key: value` entries of a Python dict. -/
def pyReprEntries : List (List Char × Value) → List Char
  | [] => []
  | [(k, v)] => pyRepr (Value.str k) ++ ':' :: ' ' :: pyRepr v
  | (k, v) :: e :: es =>
    pyRepr (Value.str k) ++ ':' :: ' ' :: pyRepr v ++ ',' :: ' ' :: pyReprEntries (e :: es)

end

/-- Python `str(value)` as used in `_assemble`'s general path: the identity on
strings, the decimal rendering on integers, the `repr`-based rendering on
containers. -/
def pyStr (v : Value) : List Char :=
  match v with
  | Value.str s => s
  | other => pyRepr other

/-- The error raised by `RefValue._resolve`: `UndefinedVariableError(ref)`,
carrying the original (unsplit) reference name. -/
inductive RenderErr
  | undefinedVariable (ref : List Char)
deriving DecidableEq

/-- Python `name.split(delim)` for a one-character delimiter (the splitting
performed by `DictPath` on the reference name). -/
def splitOnChar (delim : Char) : List Char → List (List Char)
  | [] => [[]]
  | c :: rest =>
    match splitOnChar delim rest with
    | [] => [[]]
    | g :: gs => if c = delim then [] :: g :: gs else (c :: g) :: gs

/-- First value bound to `key` in an association list (a Python dict lookup). -/
def lookupKey : List (List Char × Value) → List Char → Option Value
  | [], _ => none
  | (k, v) :: rest, key => if k = key then some v else lookupKey rest key

/-- Modelled from the spec: `DictPath.get_value` (`reclass.utils.dictpath`) is
the external nested-path lookup collaborator and its code is not part of
`src/`; per §4.4 and §6 of the spec the reference name is split on the
configured delimiter and the segments are walked through the nested mapping,
with not-found reported when a segment is absent. -/
def lookup : List (List Char) → Value → Option Value
  | [], ctx => some ctx
  | seg :: rest, ctx =>
    match ctx with
    | Value.dict entries =>
      match lookupKey entries seg with
      | some v => lookup rest v
      | none => none
    | _ => none

/-- The state of a constructed `RefValue` object: the original source string
(`_string`), the path delimiter (`_delim`), the parsed part list (`_parts`),
the `_has_escapes` flag, and the memoized reference list (`_refs`, populated
eagerly because `__init__` ends by calling `get_references()`). -/
structure RefValue where
  string : List Char
  delim : Char
  parts : List Part
  hasEscapes : Bool
  refs : List (List Char)

/-- The list comprehension of `get_references` (line 252): the `'data'` of
every `PT_REFERENCE` part, in part order, one entry per occurrence. -/
def referencesOf (parts : List Part) : List (List Char) :=
  parts.filterMap fun p =>
    match p with
    | Part.ref d => some d
    | Part.lit _ => none

/-- `RefValue.__init__`: eagerly lex and parse the source string, then
populate the memoized reference list; a parse failure propagates out of the
constructor. -/
def mkRefValue (s : List Char) (delim : Char) : Except ParseErr RefValue :=
  match parse (lex s) with
  | Except.error e => Except.error e
  | Except.ok (parts, hasEsc) => Except.ok ⟨s, delim, parts, hasEsc, referencesOf parts⟩

/-- `RefValue.get_references()`: returns the memoized list (always populated
after construction, since `__init__` calls it). -/
def getReferences (v : RefValue) : List (List Char) := v.refs

/-- `RefValue.has_references()`: `len(self.get_references()) > 0`. -/
def hasReferences (v : RefValue) : Bool :=
  decide (0 < (getReferences v).length)

/-- `RefValue._resolve(ref, context)`: split the name with the configured
delimiter via `DictPath`, walk the context, and turn a failed lookup
(`KeyError`) into `UndefinedVariableError(ref)` carrying the original unsplit
name. -/
def resolveRef (v : RefValue) (r : List Char) (context : Value) : Except RenderErr Value :=
  match lookup (splitOnChar v.delim r) context with
  | some value => Except.ok value
  | none => Except.error (RenderErr.undefinedVariable r)

/-- The `for part in self._parts` loop of `_assemble`'s general path: literal
texts are appended verbatim, references are resolved and appended through
`str(…)`; the first resolver failure propagates. -/
def assembleParts (resolver : List Char → Except RenderErr Value) :
    List Part → Except RenderErr (List Char)
  | [] => Except.ok []
  | Part.lit d :: rest =>
    match assembleParts resolver rest with
    | Except.error e => Except.error e
    | Except.ok r => Except.ok (d ++ r)
  | Part.ref d :: rest =>
    match resolver d with
    | Except.error e => Except.error e
    | Except.ok value =>
      match assembleParts resolver rest with
      | Except.error e => Except.error e
      | Except.ok r => Except.ok (pyStr value ++ r)

/-- `RefValue._assemble(resolver)`: the identity fast path (no references and
no escapes → the original string), the single-reference fast path (exactly
one part and at least one reference → the resolved value without string
conversion), and the general piece-by-piece path. -/
def assemble (v : RefValue) (resolver : List Char → Except RenderErr Value) :
    Except RenderErr Value :=
  if hasReferences v = false ∧ v.hasEscapes = false then
    Except.ok (Value.str v.string)
  else if v.parts.length = 1 ∧ hasReferences v = true then
    resolver (v.parts.getD 0 (Part.lit [])).data
  else
    match assembleParts resolver v.parts with
    | Except.error e => Except.error e
    | Except.ok r => Except.ok (Value.str r)

/-- `RefValue.render(context)`: assemble with the resolver
`lambda s: self._resolve(s, context)`. -/
def render (v : RefValue) (context : Value) : Except RenderErr Value :=
  assemble v fun s => resolveRef v s context

/-- The assembly performed inside `RefValue.__repr__`: the resolver
`do_not_resolve = lambda s: s.join(PARAMETER_INTERPOLATION_SENTINELS)`
re-wraps each reference name in the sentinel pair instead of resolving it,
consulting no context. -/
def reprAssemble (v : RefValue) : Except RenderErr Value :=
  assemble v fun s =>
    Except.ok (Value.str (PARAMETER_INTERPOLATION_SENTINELS.1 ++ s
      ++ PARAMETER_INTERPOLATION_SENTINELS.2))

/-- The concatenation, in order, of the text fields of a token list; the
lexer is lossless iff this reproduces its input. -/
def concatTexts (tokens : List Token) : List Char :=
  (tokens.map Token.text).flatten

/-- Every token the lexer can emit: a nonempty literal, or one of the three
marker tokens carrying exactly its pattern's text. -/
def goodToken (t : Token) : Prop :=
  (t.tag = Tag.LITERAL ∧ t.text ≠ []) ∨
  t = ⟨ESCAPE_CHARACTER, Tag.ESCAPE⟩ ∨
  t = ⟨PARAMETER_INTERPOLATION_SENTINELS.1, Tag.INTRPL_START⟩ ∨
  t = ⟨PARAMETER_INTERPOLATION_SENTINELS.2, Tag.INTRPL_END⟩

/-- The textual redisplay of a part list: literal texts verbatim, reference
names re-wrapped in the sentinel pair (the string `__repr__` assembles). -/
def redisplayParts (parts : List Part) : List Char :=
  (parts.map fun p =>
    match p with
    | Part.lit d => d
    | Part.ref n => PARAMETER_INTERPOLATION_SENTINELS.1 ++ n
        ++ PARAMETER_INTERPOLATION_SENTINELS.2).flatten

/-! ## Lexer lemmas -/

theorem matchAt_eq_take {chars : List Char} {pos : Nat} {pat : List Char}
    (h : matchAt chars pos pat = true) : (chars.drop pos).take pat.length = pat := by
  simpa [matchAt] using h

theorem tryMatch_shape {chars : List Char} {pos : Nat} {pat : List Char} {tag : Tag}
    (h : tryMatch chars pos = some (pat, tag)) :
    ((pat = ESCAPE_CHARACTER ∧ tag = Tag.ESCAPE) ∨
     (pat = PARAMETER_INTERPOLATION_SENTINELS.1 ∧ tag = Tag.INTRPL_START) ∨
     (pat = PARAMETER_INTERPOLATION_SENTINELS.2 ∧ tag = Tag.INTRPL_END)) ∧
    (chars.drop pos).take pat.length = pat := by
  unfold tryMatch at h
  split_ifs at h with h1 h2 h3
  · simp only [Option.some.injEq, Prod.mk.injEq] at h
    obtain ⟨h4, h5⟩ := h
    subst h4; subst h5
    exact ⟨Or.inl ⟨rfl, rfl⟩, matchAt_eq_take h1⟩
  · simp only [Option.some.injEq, Prod.mk.injEq] at h
    obtain ⟨h4, h5⟩ := h
    subst h4; subst h5
    exact ⟨Or.inr (Or.inl ⟨rfl, rfl⟩), matchAt_eq_take h2⟩
  · simp only [Option.some.injEq, Prod.mk.injEq] at h
    obtain ⟨h4, h5⟩ := h
    subst h4; subst h5
    exact ⟨Or.inr (Or.inr ⟨rfl, rfl⟩), matchAt_eq_take h3⟩

theorem tryMatch_pat_pos {chars : List Char} {pos : Nat} {pat : List Char} {tag : Tag}
    (h : tryMatch chars pos = some (pat, tag)) : 0 < pat.length := by
  rcases (tryMatch_shape h).1 with ⟨rfl, -⟩ | ⟨rfl, -⟩ | ⟨rfl, -⟩ <;>
    simp [ESCAPE_CHARACTER, PARAMETER_INTERPOLATION_SENTINELS]

theorem concatTexts_append (xs ys : List Token) :
    concatTexts (xs ++ ys) = concatTexts xs ++ concatTexts ys := by
  simp [concatTexts]

theorem concatTexts_cons (t : Token) (xs : List Token) :
    concatTexts (t :: xs) = t.text ++ concatTexts xs := by
  simp [concatTexts]

/-- The lexer loop is lossless: the emitted texts reassemble the scanned
input (everything from the pending-literal start, or from the cursor). -/
theorem lexLoopF_concat (chars : List Char) :
    ∀ fuel pos litStart acc,
      2 * (chars.length - pos) + (if Option.isNone litStart then 2 else 1) ≤ fuel →
      (∀ s, litStart = some s → s ≤ pos) →
      concatTexts (lexLoopF fuel chars pos litStart acc) =
        concatTexts acc ++
          (match litStart with
           | some s => chars.drop s
           | none => chars.drop pos) := by
  intro fuel
  induction fuel with
  | zero =>
    intro pos litStart acc hf _
    exfalso
    cases litStart <;> simp at hf
  | succ fuel ih =>
    intro pos litStart acc hf hs
    rw [lexLoopF.eq_def]
    by_cases hp : pos < chars.length
    · cases hm : tryMatch chars pos with
      | some pt =>
        obtain ⟨pat, tag⟩ := pt
        have hL : 0 < pat.length := tryMatch_pat_pos hm
        have htake : (chars.drop pos).take pat.length = pat := (tryMatch_shape hm).2
        have hsplit2 : chars.drop pos = pat ++ chars.drop (pos + pat.length) := by
          conv_lhs => rw [← List.take_append_drop pat.length (chars.drop pos)]
          rw [htake, List.drop_drop, Nat.add_comm]
        cases litStart with
        | none =>
          simp only [hp, if_true, hm]
          rw [ih (pos + pat.length) none _ (by simp at hf ⊢; omega)
            (by intro t ht; cases ht)]
          rw [concatTexts_append]
          simp only [concatTexts, List.map_cons, List.map_nil, List.flatten_cons,
            List.flatten_nil, List.append_nil, List.append_assoc]
          rw [← hsplit2]
        | some s =>
          have hsle : s ≤ pos := hs s rfl
          have hps : s + (pos - s) = pos := by omega
          have hsplit : chars.drop s = pySlice chars s pos ++ chars.drop pos := by
            rw [pySlice]
            conv_lhs => rw [← List.take_append_drop (pos - s) (chars.drop s)]
            rw [List.drop_drop, hps]
          simp only [hp, if_true, hm]
          rw [ih (pos + pat.length) none _ (by simp at hf ⊢; omega)
            (by intro t ht; cases ht)]
          rw [concatTexts_append, concatTexts_append]
          simp only [concatTexts, List.map_cons, List.map_nil, List.flatten_cons,
            List.flatten_nil, List.append_nil, List.append_assoc]
          rw [← hsplit2, ← hsplit]
      | none =>
        cases litStart with
        | none =>
          simp only [hp, if_true, hm]
          rw [ih pos (some pos) acc (by simp at hf ⊢; omega)
            (by intro t ht; cases ht; omega)]
        | some s =>
          simp only [hp, if_true, hm]
          rw [ih (pos + 1) (some s) acc (by simp at hf ⊢; omega)
            (by intro t ht; cases ht; exact le_trans (hs s rfl) (Nat.le_succ pos))]
    · cases litStart with
      | none =>
        have hnil : chars.drop pos = [] := List.drop_eq_nil_of_le (by omega)
        simp [hp, hnil]
      | some s =>
        simp [hp, concatTexts_append, concatTexts]

/-- C10 ingredient: `_lex` is lossless at the top level. -/
theorem lex_concat (s : List Char) : concatTexts (lex s) = s := by
  have h := lexLoopF_concat s (2 * s.length + 2) 0 none [] (by simp) (by intro t ht; cases ht)
  simpa [lex, concatTexts] using h

/-- Every token the lexer loop emits is a nonempty literal or an exact marker
token. -/
theorem lexLoopF_good (chars : List Char) :
    ∀ fuel pos litStart acc,
      (∀ s, litStart = some s → s ≤ pos ∧ s < chars.length ∧ tryMatch chars s = none) →
      (∀ t ∈ acc, goodToken t) →
      ∀ t ∈ lexLoopF fuel chars pos litStart acc, goodToken t := by
  intro fuel
  induction fuel with
  | zero =>
    intro pos litStart acc _ hacc t ht
    rw [lexLoopF] at ht
    exact hacc t ht
  | succ fuel ih =>
    intro pos litStart acc hls hacc
    have hpatGood : ∀ pat tag, tryMatch chars pos = some (pat, tag) →
        goodToken ⟨pat, tag⟩ := by
      intro pat tag hm
      rcases (tryMatch_shape hm).1 with ⟨rfl, rfl⟩ | ⟨rfl, rfl⟩ | ⟨rfl, rfl⟩
      · exact Or.inr (Or.inl rfl)
      · exact Or.inr (Or.inr (Or.inl rfl))
      · exact Or.inr (Or.inr (Or.inr rfl))
    cases litStart with
    | none =>
      rw [lexLoopF.eq_3]
      by_cases hp : pos < chars.length
      · rw [if_pos hp]
        cases hm : tryMatch chars pos with
        | some pt =>
          obtain ⟨pat, tag⟩ := pt
          refine ih (pos + pat.length) none _ (by intro t ht; cases ht) ?_
          intro t ht
          rcases List.mem_append.1 ht with h1 | h2
          · exact hacc t h1
          · rcases List.mem_singleton.1 h2 with rfl
            exact hpatGood pat tag hm
        | none =>
          exact ih pos (some pos) acc
            (by intro t ht; cases ht; exact ⟨Nat.le_refl pos, hp, hm⟩) hacc
      · rw [if_neg hp]
        exact hacc
    | some s =>
      obtain ⟨hsle, hslen, hsnone⟩ := hls s rfl
      rw [lexLoopF.eq_2]
      by_cases hp : pos < chars.length
      · rw [if_pos hp]
        cases hm : tryMatch chars pos with
        | some pt =>
          obtain ⟨pat, tag⟩ := pt
          have hslt : s < pos := by
            rcases Nat.lt_or_ge s pos with h | h
            · exact h
            · have hsp : s = pos := by omega
              rw [hsp] at hsnone
              rw [hsnone] at hm
              cases hm
          have hlitGood : goodToken ⟨pySlice chars s pos, Tag.LITERAL⟩ := by
            refine Or.inl ⟨rfl, ?_⟩
            intro hnil
            have hnil2 : (chars.drop s).take (pos - s) = [] := hnil
            have hlen := congrArg List.length hnil2
            simp [List.length_take, List.length_drop] at hlen
            omega
          refine ih (pos + pat.length) none _ (by intro t ht; cases ht) ?_
          intro t ht
          rcases List.mem_append.1 ht with h1 | h2
          · rcases List.mem_append.1 h1 with h3 | h4
            · exact hacc t h3
            · rcases List.mem_singleton.1 h4 with rfl
              exact hlitGood
          · rcases List.mem_singleton.1 h2 with rfl
            exact hpatGood pat tag hm
        | none =>
          refine ih (pos + 1) (some s) acc ?_ hacc
          intro t ht
          cases ht
          exact ⟨Nat.le_trans hsle (Nat.le_succ pos), hslen, hsnone⟩
      · rw [if_neg hp]
        intro t ht
        rcases List.mem_append.1 ht with h1 | h2
        · exact hacc t h1
        · rcases List.mem_singleton.1 h2 with rfl
          refine Or.inl ⟨rfl, ?_⟩
          intro hnil
          have hnil2 : chars.drop s = [] := hnil
          have hlen := congrArg List.length hnil2
          simp [List.length_drop] at hlen
          omega

/-- Top-level token-shape invariant for `_lex`. -/
theorem lex_good (s : List Char) : ∀ t ∈ lex s, goodToken t := by
  refine lexLoopF_good s (2 * s.length + 2) 0 none [] ?_ ?_
  · intro t ht; cases ht
  · intro t ht; cases ht

/-- Every character of an emitted token's text occurs in the lexed string. -/
theorem lex_text_subset (s : List Char) {t : Token} (ht : t ∈ lex s) :
    ∀ c ∈ t.text, c ∈ s := by
  intro c hc
  have : c ∈ concatTexts (lex s) := by
    rw [concatTexts, List.mem_flatten]
    exact ⟨t.text, List.mem_map_of_mem Token.text ht, hc⟩
  rwa [lex_concat] at this

/-- A string without the escape character produces no escape tokens. -/
theorem lex_no_escape (s : List Char) (hesc : '\\' ∉ s) :
    ∀ t ∈ lex s, t.tag ≠ Tag.ESCAPE := by
  intro t ht htag
  rcases lex_good s t ht with ⟨h1, -⟩ | h2 | h3 | h4
  · rw [htag] at h1; cases h1
  · apply hesc
    apply lex_text_subset s ht
    rw [h2]
    simp [ESCAPE_CHARACTER]
  · rw [h3] at htag; cases htag
  · rw [h4] at htag; cases htag

/-- Past the end of the input no token expression can match. -/
theorem tryMatch_oob (chars : List Char) (i : Nat) (h : chars.length ≤ i) :
    tryMatch chars i = none := by
  have hd : chars.drop i = [] := List.drop_eq_nil_of_le h
  simp [tryMatch, matchAt, hd, ESCAPE_CHARACTER, PARAMETER_INTERPOLATION_SENTINELS]

/-- When no token expression matches anywhere, the lexer emits the whole
remaining input as one literal token. -/
theorem lexLoopF_noMatch (chars : List Char) (hnm : ∀ i, tryMatch chars i = none) :
    ∀ fuel pos litStart acc,
      2 * (chars.length - pos) + (if Option.isNone litStart then 2 else 1) ≤ fuel →
      lexLoopF fuel chars pos litStart acc =
        acc ++ (match litStart with
                | some s => [⟨chars.drop s, Tag.LITERAL⟩]
                | none =>
                  if pos < chars.length then [⟨chars.drop pos, Tag.LITERAL⟩] else []) := by
  intro fuel
  induction fuel with
  | zero =>
    intro pos litStart acc hf
    exfalso
    cases litStart <;> simp at hf
  | succ fuel ih =>
    intro pos litStart acc hf
    rw [lexLoopF.eq_def]
    by_cases hp : pos < chars.length
    · cases litStart with
      | none =>
        simp only [hp, if_true, hnm pos]
        rw [ih pos (some pos) acc (by simp at hf ⊢; omega)]
      | some s =>
        simp only [hp, if_true, hnm pos]
        rw [ih (pos + 1) (some s) acc (by simp at hf ⊢; omega)]
    · cases litStart with
      | none => simp [hp]
      | some s => simp [hp]

/-- A string in which no token expression matches (no escape character and no
interpolation markers) lexes to a single literal token, or no token at all
when empty. -/
theorem lex_noMatch (s : List Char) (hnm : ∀ i < s.length, tryMatch s i = none) :
    lex s = if 0 < s.length then [⟨s, Tag.LITERAL⟩] else [] := by
  have hnm' : ∀ i, tryMatch s i = none := by
    intro i
    by_cases hi : i < s.length
    · exact hnm i hi
    · exact tryMatch_oob s i (by omega)
  have h := lexLoopF_noMatch s hnm' (2 * s.length + 2) 0 none [] (by simp)
  simpa [lex] using h

/-! ## Parser lemmas -/

theorem getD_mem {tokens : List Token} {j : Nat} (h : j < tokens.length) :
    tokens.getD j dummyToken ∈ tokens := by
  rw [List.getD_eq_getElem tokens dummyToken h]
  exact List.getElem_mem h

theorem concatTexts_drop_succ {tokens : List Token} {j : Nat} (h : j < tokens.length) :
    concatTexts (tokens.drop j) =
      (tokens.getD j dummyToken).text ++ concatTexts (tokens.drop (j + 1)) := by
  rw [List.drop_eq_getElem_cons h, concatTexts_cons, List.getD_eq_getElem tokens dummyToken h]

theorem text_of_end {tokens : List Token} (hgood : ∀ t ∈ tokens, goodToken t)
    {j : Nat} (h : j < tokens.length) (htag : tagAt tokens j = Tag.INTRPL_END) :
    (tokens.getD j dummyToken).text = PARAMETER_INTERPOLATION_SENTINELS.2 := by
  rcases hgood _ (getD_mem h) with ⟨h1, -⟩ | h2 | h3 | h4
  · rw [tagAt] at htag; rw [htag] at h1; cases h1
  · rw [tagAt, h2] at htag; simp at htag
  · rw [tagAt, h3] at htag; simp at htag
  · rw [h4]

theorem text_of_start {tokens : List Token} (hgood : ∀ t ∈ tokens, goodToken t)
    {j : Nat} (h : j < tokens.length) (htag : tagAt tokens j = Tag.INTRPL_START) :
    (tokens.getD j dummyToken).text = PARAMETER_INTERPOLATION_SENTINELS.1 := by
  rcases hgood _ (getD_mem h) with ⟨h1, -⟩ | h2 | h3 | h4
  · rw [tagAt] at htag; rw [htag] at h1; cases h1
  · rw [tagAt, h2] at htag; simp at htag
  · rw [h3]
  · rw [tagAt, h4] at htag; simp at htag

/-- The interpolation-body sub-scan always advances the cursor past the
consumed end marker and stays inside the token list. -/
theorem parseInterpolationF_bounds :
    ∀ fuel (tokens : List Token) j parts name next,
      parseInterpolationF fuel tokens j parts = Except.ok (name, next) →
      j < next ∧ next ≤ tokens.length := by
  intro fuel
  induction fuel with
  | zero =>
    intro tokens j parts name next h
    rw [parseInterpolationF.eq_1] at h
    cases h
  | succ fuel ih =>
    intro tokens j parts name next h
    rw [parseInterpolationF.eq_2] at h
    split_ifs at h with h1 h2 h3 h4 h5 h6
    · cases h
      omega
    · have := ih _ _ _ _ _ h
      omega
    · have := ih _ _ _ _ _ h
      omega
    · have := ih _ _ _ _ _ h
      omega

theorem parseInterpolation_bounds {tokens : List Token} {j : Nat}
    {parts : List (List Char)} {name : List Char} {next : Nat}
    (h : parseInterpolation tokens j parts = Except.ok (name, next)) :
    j < next ∧ next ≤ tokens.length :=
  parseInterpolationF_bounds _ _ _ _ _ _ h

/-- Over an escape-free token list, a successful sub-scan's name plus the
consumed end marker accounts exactly for the consumed tokens' texts. -/
theorem parseInterpolationF_noEscape (tokens : List Token)
    (hgood : ∀ t ∈ tokens, goodToken t)
    (hne : ∀ t ∈ tokens, t.tag ≠ Tag.ESCAPE) :
    ∀ fuel j parts name next,
      parseInterpolationF fuel tokens j parts = Except.ok (name, next) →
      name ++ PARAMETER_INTERPOLATION_SENTINELS.2 ++ concatTexts (tokens.drop next) =
        parts.flatten ++ concatTexts (tokens.drop j) := by
  intro fuel
  induction fuel with
  | zero =>
    intro j parts name next h
    rw [parseInterpolationF.eq_1] at h
    cases h
  | succ fuel ih =>
    intro j parts name next h
    rw [parseInterpolationF.eq_2] at h
    split_ifs at h with h1 h2 h3 h4 h5 h6
    · cases h
      rw [concatTexts_drop_succ h1, text_of_end hgood h1 h2]
      simp [List.append_assoc]
    · exact absurd h4 (hne _ (getD_mem h1))
    · exact absurd h4 (hne _ (getD_mem h1))
    · rw [ih _ _ _ _ h, concatTexts_drop_succ h1]
      simp [textAt, List.append_assoc]

theorem redisplayParts_append_lit (parts : List Part) (d : List Char) :
    redisplayParts (parts ++ [Part.lit d]) = redisplayParts parts ++ d := by
  simp [redisplayParts]

theorem redisplayParts_append_ref (parts : List Part) (n : List Char) :
    redisplayParts (parts ++ [Part.ref n]) =
      redisplayParts parts ++ (PARAMETER_INTERPOLATION_SENTINELS.1 ++ n
        ++ PARAMETER_INTERPOLATION_SENTINELS.2) := by
  simp [redisplayParts]

/-- Over an escape-free, well-shaped token list, the main parse loop
preserves `_has_escapes` and its emitted parts redisplay to exactly the
consumed tokens' texts. -/
theorem parseLoopF_noEscape (tokens : List Token)
    (hgood : ∀ t ∈ tokens, goodToken t)
    (hne : ∀ t ∈ tokens, t.tag ≠ Tag.ESCAPE) :
    ∀ fuel i parts he parts' he',
      parseLoopF fuel tokens i parts he = Except.ok (parts', he') →
      redisplayParts parts' = redisplayParts parts ++ concatTexts (tokens.drop i) ∧
        he' = he := by
  intro fuel
  induction fuel with
  | zero =>
    intro i parts he parts' he' h
    rw [parseLoopF.eq_1] at h
    cases h
  | succ fuel ih =>
    intro i parts he parts' he' h
    rw [parseLoopF.eq_2] at h
    by_cases hp : i < tokens.length
    · rw [if_pos hp] at h
      by_cases h2 : tagAt tokens i = Tag.LITERAL
      · rw [if_pos h2] at h
        obtain ⟨ih1, ih2⟩ := ih _ _ _ _ _ h
        refine ⟨?_, ih2⟩
        rw [ih1, redisplayParts_append_lit, concatTexts_drop_succ hp]
        simp [textAt, List.append_assoc]
      · rw [if_neg h2] at h
        by_cases h3 : tagAt tokens i = Tag.ESCAPE
        · exact absurd h3 (hne _ (getD_mem hp))
        · rw [if_neg h3] at h
          by_cases h4 : tagAt tokens i = Tag.INTRPL_END
          · rw [if_pos h4] at h
            obtain ⟨ih1, ih2⟩ := ih _ _ _ _ _ h
            refine ⟨?_, ih2⟩
            rw [ih1, redisplayParts_append_lit, concatTexts_drop_succ hp]
            simp [textAt, List.append_assoc]
          · rw [if_neg h4] at h
            have hstart : tagAt tokens i = Tag.INTRPL_START := by
              cases htag : tagAt tokens i <;> simp_all
            cases hm : parseInterpolation tokens (i + 1) [] with
            | error e =>
              rw [hm] at h
              cases h
            | ok pr =>
              obtain ⟨name, next⟩ := pr
              rw [hm] at h
              obtain ⟨ih1, ih2⟩ := ih _ _ _ _ _ h
              refine ⟨?_, ih2⟩
              have hsub := parseInterpolationF_noEscape tokens hgood hne _ _ _ _ _ hm
              simp only [List.flatten_nil, List.nil_append] at hsub
              rw [ih1, redisplayParts_append_ref, concatTexts_drop_succ hp,
                text_of_start hgood hp hstart]
              rw [List.append_assoc, List.append_assoc, List.append_assoc, ← hsub]
              simp [List.append_assoc]
    · rw [if_neg hp] at h
      simp only [Except.ok.injEq, Prod.mk.injEq] at h
      obtain ⟨h5, h6⟩ := h
      subst h5
      subst h6
      have hnil : tokens.drop i = [] := List.drop_eq_nil_of_le (by omega)
      simp [hnil, concatTexts]

/-- Fuel irrelevance for the main parse loop: any two sufficient fuels give
the same result. -/
theorem parseLoopF_irrel (tokens : List Token) :
    ∀ f1 f2 i parts he, tokens.length - i < f1 → tokens.length - i < f2 →
      parseLoopF f1 tokens i parts he = parseLoopF f2 tokens i parts he := by
  intro f1
  induction f1 with
  | zero =>
    intro f2 i parts he h1 _
    omega
  | succ f1 ih =>
    intro f2 i parts he h1 h2
    cases f2 with
    | zero => omega
    | succ f2 =>
      rw [parseLoopF.eq_2, parseLoopF.eq_2]
      by_cases hp : i < tokens.length
      · simp only [if_pos hp]
        by_cases ha : tagAt tokens i = Tag.LITERAL
        · simp only [if_pos ha]
          exact ih _ _ _ _ (by omega) (by omega)
        · simp only [if_neg ha]
          by_cases hb : tagAt tokens i = Tag.ESCAPE
          · simp only [if_pos hb]
            by_cases hc : i = tokens.length - 1
            · simp only [if_pos hc]
              exact ih _ _ _ _ (by omega) (by omega)
            · simp only [if_neg hc]
              by_cases hd : i + 1 ≤ tokens.length - 1 ∧ isEscapable (tagAt tokens (i + 1)) = false
              · simp only [if_pos hd]
                exact ih _ _ _ _ (by omega) (by omega)
              · simp only [if_neg hd]
                by_cases hf : i + 2 ≤ tokens.length - 1 ∧ tagAt tokens (i + 1) = Tag.ESCAPE
                    ∧ isEscapable (tagAt tokens (i + 2)) = false
                · simp only [if_pos hf]
                  exact ih _ _ _ _ (by omega) (by omega)
                · simp only [if_neg hf]
                  exact ih _ _ _ _ (by omega) (by omega)
          · simp only [if_neg hb]
            by_cases hg : tagAt tokens i = Tag.INTRPL_END
            · simp only [if_pos hg]
              exact ih _ _ _ _ (by omega) (by omega)
            · simp only [if_neg hg]
              cases hm : parseInterpolation tokens (i + 1) [] with
              | error e => rfl
              | ok pr =>
                obtain ⟨name, next⟩ := pr
                obtain ⟨hb1, hb2⟩ := parseInterpolation_bounds hm
                exact ih _ _ _ _ (by omega) (by omega)
      · simp only [if_neg hp]

/-! ## Construction and assembly lemmas -/

/-- Destructor for a successful construction: the stored fields in terms of
the source string, delimiter, and parse result. -/
theorem mkRefValue_ok {s : List Char} {d : Char} {v : RefValue}
    (h : mkRefValue s d = Except.ok v) :
    v.string = s ∧ v.delim = d ∧ v.refs = referencesOf v.parts ∧
    parse (lex s) = Except.ok (v.parts, v.hasEscapes) := by
  rw [mkRefValue.eq_def] at h
  cases hp : parse (lex s) with
  | error e =>
    rw [hp] at h
    cases h
  | ok pb =>
    obtain ⟨parts, he⟩ := pb
    rw [hp] at h
    cases h
    exact ⟨rfl, rfl, rfl, rfl⟩

theorem referencesOf_cons_lit (d : List Char) (rest : List Part) :
    referencesOf (Part.lit d :: rest) = referencesOf rest := by
  simp [referencesOf]

theorem referencesOf_cons_ref (n : List Char) (rest : List Part) :
    referencesOf (Part.ref n :: rest) = n :: referencesOf rest := by
  simp [referencesOf]

theorem resolveRef_error_iff {v : RefValue} {r : List Char} {context : Value}
    {e : RenderErr} :
    resolveRef v r context = Except.error e ↔
      lookup (splitOnChar v.delim r) context = none ∧
        e = RenderErr.undefinedVariable r := by
  rw [resolveRef.eq_def]
  cases hl : lookup (splitOnChar v.delim r) context <;> simp [eq_comm]

/-- The unresolved-redisplay resolver always succeeds, producing exactly the
redisplay of the part list. -/
theorem assembleParts_wrap (parts : List Part) :
    assembleParts (fun s => Except.ok (Value.str (PARAMETER_INTERPOLATION_SENTINELS.1 ++ s
      ++ PARAMETER_INTERPOLATION_SENTINELS.2))) parts =
    Except.ok (redisplayParts parts) := by
  induction parts with
  | nil => rfl
  | cons p rest ih =>
    cases p with
    | lit d =>
      rw [assembleParts, ih]
      show Except.ok (d ++ redisplayParts rest) =
        Except.ok (redisplayParts (Part.lit d :: rest))
      congr 1
    | ref n =>
      rw [assembleParts, ih]
      show Except.ok ((PARAMETER_INTERPOLATION_SENTINELS.1 ++ n
          ++ PARAMETER_INTERPOLATION_SENTINELS.2) ++ redisplayParts rest) =
        Except.ok (redisplayParts (Part.ref n :: rest))
      congr 1

/-- A failing general assembly pinpoints a reference whose resolution failed
with exactly that error. -/
theorem assembleParts_error_shape (resolver : List Char → Except RenderErr Value) :
    ∀ parts e, assembleParts resolver parts = Except.error e →
      ∃ r ∈ referencesOf parts, resolver r = Except.error e := by
  intro parts
  induction parts with
  | nil =>
    intro e h
    cases h
  | cons p rest ih =>
    intro e h
    cases p with
    | lit d =>
      rw [assembleParts] at h
      cases hr : assembleParts resolver rest with
      | error e2 =>
        rw [hr] at h
        cases h
        obtain ⟨r, hr1, hr2⟩ := ih _ hr
        exact ⟨r, by rw [referencesOf_cons_lit]; exact hr1, hr2⟩
      | ok r =>
        rw [hr] at h
        cases h
    | ref n =>
      rw [assembleParts] at h
      cases hres : resolver n with
      | error e2 =>
        rw [hres] at h
        cases h
        exact ⟨n, by rw [referencesOf_cons_ref]; exact List.mem_cons_self n _, hres⟩
      | ok val =>
        rw [hres] at h
        cases hr : assembleParts resolver rest with
        | error e2 =>
          rw [hr] at h
          cases h
          obtain ⟨r, hr1, hr2⟩ := ih _ hr
          exact ⟨r, by rw [referencesOf_cons_ref]; exact List.mem_cons_of_mem n hr1, hr2⟩
        | ok r =>
          rw [hr] at h
          cases h

/-- A successful general assembly resolves every reference it contains. -/
theorem assembleParts_ok_refs (resolver : List Char → Except RenderErr Value) :
    ∀ parts out, assembleParts resolver parts = Except.ok out →
      ∀ r ∈ referencesOf parts, ∃ val, resolver r = Except.ok val := by
  intro parts
  induction parts with
  | nil =>
    intro out h r hr
    rw [referencesOf] at hr
    cases hr
  | cons p rest ih =>
    intro out h r hr
    cases p with
    | lit d =>
      rw [referencesOf_cons_lit] at hr
      rw [assembleParts] at h
      cases hrest : assembleParts resolver rest with
      | error e2 =>
        rw [hrest] at h
        cases h
      | ok r2 =>
        exact ih _ hrest r hr
    | ref n =>
      rw [referencesOf_cons_ref] at hr
      rw [assembleParts] at h
      cases hres : resolver n with
      | error e2 =>
        rw [hres] at h
        cases h
      | ok val =>
        rcases List.mem_cons.1 hr with rfl | hr2
        · exact ⟨val, hres⟩
        · rw [hres] at h
          cases hrest : assembleParts resolver rest with
          | error e2 =>
            rw [hrest] at h
            cases h
          | ok r2 =>
            exact ih _ hrest r hr2

/-! ## Claim theorems -/

/-- C10: For every input string, the lexer is lossless — the concatenation,
in order, of the text fields of all tokens it emits equals the input string
exactly — and no emitted Literal token has empty text. -/
theorem c10_lexer_lossless (s : List Char) :
    concatTexts (lex s) = s ∧
    ∀ t ∈ lex s, t.tag = Tag.LITERAL → t.text ≠ [] := by
  refine ⟨lex_concat s, ?_⟩
  intro t ht htag
  rcases lex_good s t ht with ⟨-, h⟩ | h2 | h3 | h4
  · exact h
  · rw [h2] at htag
    simp at htag
  · rw [h3] at htag
    simp at htag
  · rw [h4] at htag
    simp at htag

/-- Witness for C10 at the concrete input `a$` (one literal token). -/
theorem c10_lexer_lossless_witness :
    concatTexts (lex ['a', '$']) = ['a', '$'] ∧
    (Token.mk ['a', '$'] Tag.LITERAL).text ≠ [] :=
  ⟨(c10_lexer_lossless ['a', '$']).1,
   (c10_lexer_lossless ['a', '$']).2 ⟨['a', '$'], Tag.LITERAL⟩ (by decide) rfl⟩

/-- C1 (code bug): on the source `${a\}b}` the escaped-end-marker case of
`_parse_interpolation` never fires, because line 214 compares the whole
`(text, tag)` tuple `tokens[index + 1]` with the tag string `LT_INTRPL_END`
(never equal in Python).  Instead of appending the end marker's text and
consuming both tokens, the sub-scan appends the escape character itself to
the reference name and the following end marker terminates the scan: the
parts are `[Reference "a\", Literal "b", Literal "}"]`, not
`[Reference "a}b"]` as the claim (and the code's own comment) state. -/
theorem c1_escaped_end_marker_bug :
    mkRefValue ['$', lbrace, 'a', '\\', rbrace, 'b', rbrace] '.' =
      Except.ok
        { string := ['$', lbrace, 'a', '\\', rbrace, 'b', rbrace], delim := '.',
          parts := [Part.ref ['a', '\\'], Part.lit ['b'], Part.lit [rbrace]],
          hasEscapes := false, refs := [['a', '\\']] } := rfl

/-- C2 (code bug): on the source `${a\` (interpolation never closed, escape
token last) `_parse_interpolation` evaluates the out-of-range subscript
`tokens[index + 1]` on line 214 and dies with an `IndexError`, which the
`except StopIteration` handler does not catch — instead of the documented
incomplete-interpolation error. -/
theorem c2_incomplete_interpolation_bug :
    mkRefValue ['$', lbrace, 'a', '\\'] '.' = Except.error ParseErr.indexError := rfl

/-- C6: a start/end marker pair enclosing an empty accumulated reference name
fails with the interpolation (syntax) error: the sub-scan meeting an
immediate end token with no collected parts raises it, and the failure
happens during construction (`${}` makes `mkRefValue` itself fail). -/
theorem c6_empty_reference_name (tokens : List Token) (j : Nat)
    (hp : j < tokens.length) (htag : tagAt tokens j = Tag.INTRPL_END) :
    parseInterpolation tokens j [] = Except.error ParseErr.interpolationError ∧
    mkRefValue ['$', lbrace, rbrace] '.' = Except.error ParseErr.interpolationError := by
  constructor
  · rw [parseInterpolation, parseInterpolationF.eq_2, if_pos hp, if_pos htag, if_pos rfl]
  · rfl

/-- Witness for C6 at a concrete one-token list. -/
theorem c6_empty_reference_name_witness :
    parseInterpolation [Token.mk [rbrace] Tag.INTRPL_END] 0 [] =
      Except.error ParseErr.interpolationError :=
  (c6_empty_reference_name [Token.mk [rbrace] Tag.INTRPL_END] 0 (by decide) rfl).1

/-- C5: the four escape-adjacency cases of `_parse` (lines 160–188), for an
escape token at position `i` outside any interpolation: (1) final token →
emitted verbatim as a Literal and the parse ends; (2) next token not
escapable → escape emitted verbatim, next token not consumed; (3) next token
Escape and the one after not escapable → both escape characters emitted
verbatim as Literals, next token consumed; (4) otherwise (next token
escapable) → the next token's raw text emitted as a single Literal, the
escape dropped, the next token consumed, and `_has_escapes` set to true. -/
theorem c5_escape_adjacency (tokens : List Token) (i : Nat) (parts : List Part) (he : Bool)
    (hp : i < tokens.length) (htag : tagAt tokens i = Tag.ESCAPE) :
    (i = tokens.length - 1 →
      parseLoop tokens i parts he =
        Except.ok (parts ++ [Part.lit (textAt tokens i)], he)) ∧
    (i ≠ tokens.length - 1 → isEscapable (tagAt tokens (i + 1)) = false →
      parseLoop tokens i parts he =
        parseLoop tokens (i + 1) (parts ++ [Part.lit (textAt tokens i)]) he) ∧
    (i + 2 ≤ tokens.length - 1 → tagAt tokens (i + 1) = Tag.ESCAPE →
      isEscapable (tagAt tokens (i + 2)) = false →
      parseLoop tokens i parts he =
        parseLoop tokens (i + 2)
          (parts ++ [Part.lit (textAt tokens i), Part.lit (textAt tokens (i + 1))]) he) ∧
    (i ≠ tokens.length - 1 → isEscapable (tagAt tokens (i + 1)) = true →
      ¬(i + 2 ≤ tokens.length - 1 ∧ tagAt tokens (i + 1) = Tag.ESCAPE ∧
          isEscapable (tagAt tokens (i + 2)) = false) →
      parseLoop tokens i parts he =
        parseLoop tokens (i + 2) (parts ++ [Part.lit (textAt tokens (i + 1))]) true) := by
  have hne : ¬ tagAt tokens i = Tag.LITERAL := by
    rw [htag]
    intro hh
    cases hh
  refine ⟨?_, ?_, ?_, ?_⟩
  · intro hlast
    rw [parseLoop, parseLoopF.eq_2, if_pos hp, if_neg hne, if_pos htag, if_pos hlast]
    obtain ⟨m, hm⟩ : ∃ m, tokens.length = m + 1 := ⟨tokens.length - 1, by omega⟩
    rw [hm, parseLoopF.eq_2, if_neg (by omega : ¬ i + 1 < tokens.length)]
  · intro hlast hesc2
    have hcond2 : i + 1 ≤ tokens.length - 1 ∧ isEscapable (tagAt tokens (i + 1)) = false :=
      ⟨by omega, hesc2⟩
    rw [parseLoop, parseLoopF.eq_2, if_pos hp, if_neg hne, if_pos htag, if_neg hlast,
      if_pos hcond2]
    rw [parseLoop]
    exact parseLoopF_irrel tokens _ _ _ _ _ (by omega) (by omega)
  · intro h22 htag2 hesc3
    have hlast : ¬ i = tokens.length - 1 := by omega
    have hnc2 : ¬(i + 1 ≤ tokens.length - 1 ∧ isEscapable (tagAt tokens (i + 1)) = false) := by
      intro hc
      rw [htag2] at hc
      simp [isEscapable] at hc
    have hc3 : i + 2 ≤ tokens.length - 1 ∧ tagAt tokens (i + 1) = Tag.ESCAPE ∧
        isEscapable (tagAt tokens (i + 2)) = false := ⟨h22, htag2, hesc3⟩
    rw [parseLoop, parseLoopF.eq_2, if_pos hp, if_neg hne, if_pos htag, if_neg hlast,
      if_neg hnc2, if_pos hc3]
    rw [parseLoop]
    exact parseLoopF_irrel tokens _ _ _ _ _ (by omega) (by omega)
  · intro hlast hesc htriple
    have hnc2 : ¬(i + 1 ≤ tokens.length - 1 ∧ isEscapable (tagAt tokens (i + 1)) = false) := by
      intro hc
      rw [hesc] at hc
      cases hc.2
    rw [parseLoop, parseLoopF.eq_2, if_pos hp, if_neg hne, if_pos htag, if_neg hlast,
      if_neg hnc2, if_neg htriple]
    rw [parseLoop]
    exact parseLoopF_irrel tokens _ _ _ _ _ (by omega) (by omega)

/-- Witness for C5: case (1) on a lone escape token and case (4) on an escape
followed by an interpolation-start token. -/
theorem c5_escape_adjacency_witness :
    parseLoop [Token.mk ['\\'] Tag.ESCAPE] 0 [] false =
      Except.ok ([Part.lit ['\\']], false) ∧
    parseLoop [Token.mk ['\\'] Tag.ESCAPE, Token.mk ['$', lbrace] Tag.INTRPL_START] 0 [] false =
      parseLoop [Token.mk ['\\'] Tag.ESCAPE, Token.mk ['$', lbrace] Tag.INTRPL_START] 2
        [Part.lit ['$', lbrace]] true :=
  ⟨(c5_escape_adjacency [Token.mk ['\\'] Tag.ESCAPE] 0 [] false (by decide) rfl).1 rfl,
   (c5_escape_adjacency [Token.mk ['\\'] Tag.ESCAPE, Token.mk ['$', lbrace] Tag.INTRPL_START]
      0 [] false (by decide) rfl).2.2.2 (by decide) (by decide) (by decide)⟩

/-- C3: when the Part sequence of a constructed `RefValue` is exactly one
Reference, `render` returns the resolver's value for that name with its
original type (no string conversion); and this single-reference fast path is
the only way a non-string value can come out of `render`. -/
theorem c3_single_reference_type_preservation (s : List Char) (d : Char) (v : RefValue)
    (context : Value) (h : mkRefValue s d = Except.ok v) :
    (∀ name, v.parts = [Part.ref name] →
      render v context = resolveRef v name context) ∧
    (∀ val, render v context = Except.ok val → (∀ w, val ≠ Value.str w) →
      ∃ name, v.parts = [Part.ref name] ∧
        resolveRef v name context = Except.ok val) := by
  obtain ⟨hstr, hdelim, hrefs, hparse⟩ := mkRefValue_ok h
  constructor
  · intro name hp1
    have hrefs1 : v.refs = [name] := by
      rw [hrefs, hp1]
      rfl
    have hhas : hasReferences v = true := by
      simp [hasReferences, getReferences, hrefs1]
    rw [render, assemble.eq_def]
    rw [if_neg (by simp [hhas]), if_pos ⟨by rw [hp1]; rfl, hhas⟩]
    rw [hp1]
    rfl
  · intro val hrender hnotstr
    rw [render, assemble.eq_def] at hrender
    by_cases hc1 : hasReferences v = false ∧ v.hasEscapes = false
    · rw [if_pos hc1] at hrender
      cases hrender
      exact absurd rfl (hnotstr v.string)
    · rw [if_neg hc1] at hrender
      by_cases hc2 : v.parts.length = 1 ∧ hasReferences v = true
      · rw [if_pos hc2] at hrender
        obtain ⟨hlen, hhas⟩ := hc2
        obtain ⟨p, hp1⟩ := List.length_eq_one.1 hlen
        cases p with
        | lit d2 =>
          exfalso
          have hr0 : v.refs = [] := by
            rw [hrefs, hp1]
            rfl
          rw [hasReferences, getReferences, hr0] at hhas
          simp at hhas
        | ref name =>
          rw [hp1] at hrender
          exact ⟨name, hp1, hrender⟩
      · rw [if_neg hc2] at hrender
        cases hr : assembleParts (fun s => resolveRef v s context) v.parts with
        | error e =>
          rw [hr] at hrender
          cases hrender
        | ok r =>
          rw [hr] at hrender
          cases hrender
          exact absurd rfl (hnotstr r)

/-- Witness for C3: `${a}` rendered against a context binding `a` to the
integer 42 yields the integer itself. -/
theorem c3_single_reference_type_preservation_witness :
    ∃ v, mkRefValue ['$', lbrace, 'a', rbrace] '.' = Except.ok v ∧
      render v (Value.dict [(['a'], Value.int 42)]) = Except.ok (Value.int 42) := by
  refine ⟨_, rfl, ?_⟩
  rw [(c3_single_reference_type_preservation ['$', lbrace, 'a', rbrace] '.' _
    (Value.dict [(['a'], Value.int 42)]) rfl).1 ['a'] rfl]
  rfl

/-- C4: for a constructed `RefValue` with no Reference parts and
`has_escapes` false, `render` returns the original source string unchanged
for every context; in particular any string in which no token expression
matches (no interpolation markers, no escape character) renders to itself. -/
theorem c4_identity_fast_path :
    (∀ (s : List Char) (d : Char) (v : RefValue) (context : Value),
      mkRefValue s d = Except.ok v → referencesOf v.parts = [] → v.hasEscapes = false →
      render v context = Except.ok (Value.str s)) ∧
    (∀ (s : List Char) (d : Char) (context : Value),
      (∀ i < s.length, tryMatch s i = none) →
      ∃ v, mkRefValue s d = Except.ok v ∧
        render v context = Except.ok (Value.str s)) := by
  have part1 : ∀ (s : List Char) (d : Char) (v : RefValue) (context : Value),
      mkRefValue s d = Except.ok v → referencesOf v.parts = [] → v.hasEscapes = false →
      render v context = Except.ok (Value.str s) := by
    intro s d v context h hnoref hnoesc
    obtain ⟨hstr, hdelim, hrefs, hparse⟩ := mkRefValue_ok h
    have hhas : hasReferences v = false := by
      simp [hasReferences, getReferences, hrefs, hnoref]
    rw [render, assemble.eq_def, if_pos ⟨hhas, hnoesc⟩, hstr]
  refine ⟨part1, ?_⟩
  intro s d context hnm
  have hlex := lex_noMatch s hnm
  by_cases hs : 0 < s.length
  · rw [if_pos hs] at hlex
    have hparse : parse (lex s) = Except.ok ([Part.lit s], false) := by
      rw [hlex]
      rfl
    have hmk : mkRefValue s d = Except.ok ⟨s, d, [Part.lit s], false, []⟩ := by
      rw [mkRefValue.eq_def, hparse]
      rfl
    exact ⟨_, hmk, part1 s d _ context hmk rfl rfl⟩
  · have hs0 : s = [] := by
      cases s with
      | nil => rfl
      | cons c cs => simp at hs
    subst hs0
    exact ⟨⟨[], d, [], false, []⟩, rfl, part1 [] d _ context rfl rfl rfl⟩

/-- Witness for C4 on the marker-free string `hi`. -/
theorem c4_identity_fast_path_witness :
    ∃ v, mkRefValue ['h', 'i'] '.' = Except.ok v ∧
      render v (Value.dict []) = Except.ok (Value.str ['h', 'i']) :=
  c4_identity_fast_path.2 ['h', 'i'] '.' (Value.dict []) (by decide)

/-- C8: `get_references()` returns the memoized list populated at
construction, which is exactly the in-order extraction of the Reference
parts' names — one entry per occurrence, duplicates included, never
deduplicated; in the pure model the result is therefore identical on every
call and across renders. -/
theorem c8_get_references_order (s : List Char) (d : Char) (v : RefValue)
    (h : mkRefValue s d = Except.ok v) :
    getReferences v = referencesOf v.parts :=
  (mkRefValue_ok h).2.2.1

/-- Witness for C8 on `${a}-${a}`: the duplicate reference is kept, in
source order. -/
theorem c8_get_references_order_witness :
    ∃ v, mkRefValue ['$', lbrace, 'a', rbrace, '-', '$', lbrace, 'a', rbrace] '.' =
        Except.ok v ∧ getReferences v = [['a'], ['a']] := by
  refine ⟨_, rfl, ?_⟩
  rw [c8_get_references_order ['$', lbrace, 'a', rbrace, '-', '$', lbrace, 'a', rbrace]
    '.' _ rfl]
  rfl

/-- C7 (with the nested lookup modelled from the spec): for a constructed
`RefValue`, `render` fails iff the external nested-path lookup reports some
referenced name as absent from the context, and when it fails the error is
exactly `UndefinedVariableError` carrying the original unsplit reference
name.  Construction never consults a context, so the error can only arise at
render time. -/
theorem c7_undefined_variable (s : List Char) (d : Char) (v : RefValue) (context : Value)
    (h : mkRefValue s d = Except.ok v) :
    ((∃ e, render v context = Except.error e) ↔
      ∃ r ∈ getReferences v, lookup (splitOnChar d r) context = none) ∧
    (∀ e, render v context = Except.error e →
      ∃ r ∈ getReferences v, lookup (splitOnChar d r) context = none ∧
        e = RenderErr.undefinedVariable r) := by
  obtain ⟨hstr, hdelim, hrefs, hparse⟩ := mkRefValue_ok h
  subst hdelim
  have hforward : ∀ e, render v context = Except.error e →
      ∃ r ∈ getReferences v, lookup (splitOnChar v.delim r) context = none ∧
        e = RenderErr.undefinedVariable r := by
    intro e hrender
    rw [render, assemble.eq_def] at hrender
    by_cases hc1 : hasReferences v = false ∧ v.hasEscapes = false
    · rw [if_pos hc1] at hrender
      cases hrender
    · rw [if_neg hc1] at hrender
      by_cases hc2 : v.parts.length = 1 ∧ hasReferences v = true
      · rw [if_pos hc2] at hrender
        obtain ⟨hlen, hhas⟩ := hc2
        obtain ⟨p, hp1⟩ := List.length_eq_one.1 hlen
        cases p with
        | lit d2 =>
          exfalso
          have hr0 : v.refs = [] := by
            rw [hrefs, hp1]
            rfl
          rw [hasReferences, getReferences, hr0] at hhas
          simp at hhas
        | ref name =>
          rw [hp1] at hrender
          have hres : resolveRef v name context = Except.error e := hrender
          obtain ⟨hl, he⟩ := resolveRef_error_iff.1 hres
          refine ⟨name, ?_, hl, he⟩
          rw [getReferences, hrefs, hp1, referencesOf_cons_ref]
          exact List.mem_cons_self name _
      · rw [if_neg hc2] at hrender
        cases hr : assembleParts (fun s => resolveRef v s context) v.parts with
        | error e2 =>
          rw [hr] at hrender
          cases hrender
          obtain ⟨r, hr1, hr2⟩ := assembleParts_error_shape _ v.parts _ hr
          obtain ⟨hl, he⟩ := resolveRef_error_iff.1 hr2
          refine ⟨r, ?_, hl, he⟩
          rw [getReferences, hrefs]
          exact hr1
        | ok r =>
          rw [hr] at hrender
          cases hrender
  have hbackward : ∀ r ∈ getReferences v, lookup (splitOnChar v.delim r) context = none →
      ∃ e, render v context = Except.error e := by
    intro r hr hl
    have hhas : hasReferences v = true := by
      rw [hasReferences]
      cases hv : getReferences v with
      | nil =>
        rw [hv] at hr
        cases hr
      | cons a as =>
        simp [hv]
    rw [render, assemble.eq_def]
    rw [if_neg (by simp [hhas])]
    by_cases hc2 : v.parts.length = 1 ∧ hasReferences v = true
    · rw [if_pos hc2]
      obtain ⟨hlen, -⟩ := hc2
      obtain ⟨p, hp1⟩ := List.length_eq_one.1 hlen
      cases p with
      | lit d2 =>
        exfalso
        have hr0 : v.refs = [] := by
          rw [hrefs, hp1]
          rfl
        rw [hasReferences, getReferences, hr0] at hhas
        simp at hhas
      | ref name =>
        have hrn : r = name := by
          rw [getReferences, hrefs, hp1, referencesOf_cons_ref] at hr
          rcases List.mem_cons.1 hr with h1 | h1
          · exact h1
          · rw [referencesOf] at h1
            cases h1
        subst hrn
        rw [hp1]
        refine ⟨RenderErr.undefinedVariable r, ?_⟩
        show resolveRef v r context = _
        exact resolveRef_error_iff.2 ⟨hl, rfl⟩
    · rw [if_neg hc2]
      cases hras : assembleParts (fun s => resolveRef v s context) v.parts with
      | error e2 =>
        exact ⟨e2, rfl⟩
      | ok out =>
        exfalso
        have hr2 : r ∈ referencesOf v.parts := by
          rw [getReferences, hrefs] at hr
          exact hr
        obtain ⟨val, hval⟩ := assembleParts_ok_refs _ v.parts out hras r hr2
        have herr := resolveRef_error_iff.2 (And.intro hl rfl)
        rw [herr] at hval
        cases hval
  refine ⟨⟨?_, ?_⟩, hforward⟩
  · rintro ⟨e, he⟩
    obtain ⟨r, h1, h2, -⟩ := hforward e he
    exact ⟨r, h1, h2⟩
  · rintro ⟨r, h1, h2⟩
    exact hbackward r h1 h2

/-- Witness for C7: rendering `${m}` against an empty context fails with the
undefined-variable error carrying the name `m`. -/
theorem c7_undefined_variable_witness :
    ∃ r ∈ getReferences (RefValue.mk ['$', lbrace, 'm', rbrace] '.'
        [Part.ref ['m']] false [['m']]),
      lookup (splitOnChar '.' r) (Value.dict []) = none ∧
        RenderErr.undefinedVariable ['m'] = RenderErr.undefinedVariable r :=
  (c7_undefined_variable ['$', lbrace, 'm', rbrace] '.'
      (RefValue.mk ['$', lbrace, 'm', rbrace] '.' [Part.ref ['m']] false [['m']])
      (Value.dict []) rfl).2 (RenderErr.undefinedVariable ['m']) rfl

/-- C9: the unresolved-redisplay assembly used by `__repr__` (literal texts
verbatim, reference names re-wrapped in the sentinel pair, no context or
resolver consulted) reproduces a string equivalent to the original source
modulo escape normalization; for every source without the escape character
it reproduces the original source string exactly, as proved here. -/
theorem c9_redisplay_roundtrip (s : List Char) (d : Char) (v : RefValue)
    (hesc : '\\' ∉ s) (h : mkRefValue s d = Except.ok v) :
    reprAssemble v = Except.ok (Value.str s) := by
  obtain ⟨hstr, hdelim, hrefs, hparse⟩ := mkRefValue_ok h
  have hgood := lex_good s
  have hne := lex_no_escape s hesc
  have hparse2 : parseLoopF ((lex s).length + 1) (lex s) 0 [] false =
      Except.ok (v.parts, v.hasEscapes) := hparse
  obtain ⟨hred, hhe⟩ := parseLoopF_noEscape (lex s) hgood hne _ _ _ _ _ _ hparse2
  rw [List.drop_zero] at hred
  have hred2 : redisplayParts v.parts = s := by
    rw [hred, lex_concat]
    rfl
  rw [reprAssemble, assemble.eq_def]
  by_cases hc1 : hasReferences v = false ∧ v.hasEscapes = false
  · rw [if_pos hc1, hstr]
  · rw [if_neg hc1]
    by_cases hc2 : v.parts.length = 1 ∧ hasReferences v = true
    · rw [if_pos hc2]
      obtain ⟨hlen, hhas⟩ := hc2
      obtain ⟨p, hp1⟩ := List.length_eq_one.1 hlen
      cases p with
      | lit d2 =>
        exfalso
        have hr0 : v.refs = [] := by
          rw [hrefs, hp1]
          rfl
        rw [hasReferences, getReferences, hr0] at hhas
        simp at hhas
      | ref name =>
        rw [hp1]
        have hs2 : PARAMETER_INTERPOLATION_SENTINELS.1 ++ name
            ++ PARAMETER_INTERPOLATION_SENTINELS.2 = s := by
          rw [← hred2, hp1]
          simp [redisplayParts]
        show Except.ok (Value.str (PARAMETER_INTERPOLATION_SENTINELS.1 ++ name
            ++ PARAMETER_INTERPOLATION_SENTINELS.2)) = Except.ok (Value.str s)
        rw [hs2]
    · rw [if_neg hc2]
      rw [assembleParts_wrap, hred2]

/-- Witness for C9 on the escape-free source `x}${a}` (a stray end marker,
a literal, and one reference). -/
theorem c9_redisplay_roundtrip_witness :
    ∃ v, mkRefValue ['x', rbrace, '$', lbrace, 'a', rbrace] '.' = Except.ok v ∧
      reprAssemble v = Except.ok (Value.str ['x', rbrace, '$', lbrace, 'a', rbrace]) := by
  refine ⟨_, rfl, ?_⟩
  exact c9_redisplay_roundtrip ['x', rbrace, '$', lbrace, 'a', rbrace] '.' _
    (by decide) rfl

end Reclass
